import Mathlib

/-!
Verification development for the nonlinear Jacobi-Davidson eigensolver
(`NLEigenSolver/src/NLEigenJacobiDavidson.cpp`).

The numerical code is shallowly embedded over the rationals: `double`
arithmetic is modelled by exact `ℚ` arithmetic (the claims under study are
about which polynomial each routine evaluates, which columns are written,
which collaborators are invoked and how loops terminate — not about
floating-point rounding).  `Eigen::MatrixXd` values of known square shape
are modelled as `Matrix (Fin n) (Fin n) ℚ`; the columns of the tall
matrices `B_r` and `Phi` are modelled as functions `ℕ → Fin n → ℚ` from
column index to column vector.  `std::vector<Eigen::MatrixXd> MM` is
modelled as a function `ℕ → Matrix (Fin n) (Fin n) ℚ` together with the
member count `m_NumberOfMassMtx`; every access `MM[jj]` in the source is
made at an index below that count, so the function model is faithful.
`std::sqrt` is an external numeric kernel and is passed in as an oracle
parameter `sqrtQ : ℚ → ℚ`.
-/

namespace NLEigenJacobiDavidson

/-- Member `m_TOL`, set to `1e-12` in the constructor. -/
def m_TOL : ℚ := 1 / 10 ^ 12

/-- Member `m_MaxIter`, set to `20` in the constructor. -/
def m_MaxIter : ℕ := 20

/-- Embedding of `getEffectiveStiffMtx` (source lines 276-285):
`Keff = K0;` then `for (jj = 0; jj < m_NumberOfMassMtx; jj++) Keff -= pow(omega, jj+1.0) * MM[jj];`.
`m` is the member `m_NumberOfMassMtx`, `M jj` is `MM[jj]`. -/
def getEffectiveStiffMtx {n : ℕ} (m : ℕ) (K0 : Matrix (Fin n) (Fin n) ℚ)
    (M : ℕ → Matrix (Fin n) (Fin n) ℚ) (omega : ℚ) : Matrix (Fin n) (Fin n) ℚ :=
  (List.range m).foldl (fun Keff jj => Keff - omega ^ (jj + 1) • M jj) K0

/-- Embedding of `getFreqDependentStiffMtx` (source lines 237-247):
`Kn = K0;` then `for (jj = 1; jj < m_NumberOfMassMtx; jj++) Kn += (jj)*pow(omega, jj+1.0) * MM[jj];`.
The loop visits `jj = 1, …, m-1`, i.e. the index list `List.range' 1 (m-1)`. -/
def getFreqDependentStiffMtx {n : ℕ} (m : ℕ) (K0 : Matrix (Fin n) (Fin n) ℚ)
    (M : ℕ → Matrix (Fin n) (Fin n) ℚ) (omega : ℚ) : Matrix (Fin n) (Fin n) ℚ :=
  (List.range' 1 (m - 1)).foldl (fun Kn (jj : ℕ) => Kn + ((jj : ℚ) * omega ^ (jj + 1)) • M jj) K0

/-- Embedding of `getFreqDependentMassMtx` (source lines 249-260):
`Mn = MM[0];` then `for (jj = 1; jj < m_NumberOfMassMtx; jj++) Mn += (jj + 1.0) * pow(omega, jj) * MM[jj];`. -/
def getFreqDependentMassMtx {n : ℕ} (m : ℕ)
    (M : ℕ → Matrix (Fin n) (Fin n) ℚ) (omega : ℚ) : Matrix (Fin n) (Fin n) ℚ :=
  (List.range' 1 (m - 1)).foldl
    (fun Mn (jj : ℕ) => Mn + (((jj : ℚ) + 1) * omega ^ jj) • M jj) (M 0)

/-- Embedding of `getGeneralizedFreqDependentMassMtx` (source lines 262-274):
`Mlrls.setZero();` then the double loop
`for (jj = 0; jj < m; jj++) for (kk = 0; kk < jj+1; kk++) Mlrls += pow(lr,kk)*pow(ls,jj-kk)*MM[jj];`. -/
def getGeneralizedFreqDependentMassMtx {n : ℕ} (m : ℕ)
    (M : ℕ → Matrix (Fin n) (Fin n) ℚ) (lr ls : ℚ) : Matrix (Fin n) (Fin n) ℚ :=
  (List.range m).foldl (fun A jj =>
    (List.range (jj + 1)).foldl (fun B kk => B + (lr ^ kk * ls ^ (jj - kk)) • M jj) A) 0

/-- Embedding of `projectEffectiveStiffMatrix` (source lines 287-296):
`for (ii = 0; ii < indexEig; ii++) Keff += (B_s.col(ii) - Keff * B_s.col(ii)) * B_s.col(ii).transpose();`
where the `Keff` on the right-hand side is the value updated by earlier loop steps. -/
def projectEffectiveStiffMatrix {n : ℕ} (Keff : Matrix (Fin n) (Fin n) ℚ)
    (B_s : ℕ → Fin n → ℚ) (indexEig : ℕ) : Matrix (Fin n) (Fin n) ℚ :=
  (List.range indexEig).foldl
    (fun K ii => K + Matrix.vecMulVec (B_s ii - K.mulVec (B_s ii)) (B_s ii)) Keff

/-- Closed-form of the `getEffectiveStiffMtx` loop (helper, by induction on `m`). -/
lemma getEffectiveStiffMtx_eq {n : ℕ} (m : ℕ) (K0 : Matrix (Fin n) (Fin n) ℚ)
    (M : ℕ → Matrix (Fin n) (Fin n) ℚ) (omega : ℚ) :
    getEffectiveStiffMtx m K0 M omega =
      K0 - ∑ j ∈ Finset.range m, omega ^ (j + 1) • M j := by
  induction m with
  | zero => simp [getEffectiveStiffMtx]
  | succ m ih =>
    simp only [getEffectiveStiffMtx, List.range_succ, List.foldl_append, List.foldl_cons,
      List.foldl_nil] at *
    rw [ih, Finset.sum_range_succ, sub_sub]

/-- Closed-form of the `getFreqDependentStiffMtx` loop (helper). -/
lemma getFreqDependentStiffMtx_eq {n : ℕ} (m : ℕ) (K0 : Matrix (Fin n) (Fin n) ℚ)
    (M : ℕ → Matrix (Fin n) (Fin n) ℚ) (omega : ℚ) :
    getFreqDependentStiffMtx m K0 M omega =
      K0 + ∑ j ∈ Finset.Ico 1 m, ((j : ℚ) * omega ^ (j + 1)) • M j := by
  rcases m with - | m
  · simp [getFreqDependentStiffMtx]
  · induction m with
    | zero => simp [getFreqDependentStiffMtx]
    | succ m ih =>
      have hc : List.range' 1 (m + 1 + 1 - 1) = List.range' 1 (m + 1 - 1) ++ [m + 1] := by
        simp only [Nat.add_sub_cancel]
        have h := List.range'_append_1 1 m 1
        rw [List.range'_one] at h
        rw [Nat.add_comm 1 m] at h
        exact h.symm
      simp only [getFreqDependentStiffMtx] at ih ⊢
      rw [hc, List.foldl_append, List.foldl_cons, List.foldl_nil, ih,
        Finset.sum_Ico_succ_top (by omega : 1 ≤ m + 1), add_assoc]

/-- C5: for every base stiffness matrix `K0`, mass-matrix list of length `m ≥ 1`
and frequency `omega`, `getEffectiveStiffMtx` computes exactly
`Keff = K0 - Σ_{j=0}^{m-1} omega^(j+1) · M[j]`. -/
theorem c5_effective_stiffness_formula {n : ℕ} (m : ℕ) (_hm : 1 ≤ m)
    (K0 : Matrix (Fin n) (Fin n) ℚ) (M : ℕ → Matrix (Fin n) (Fin n) ℚ) (omega : ℚ) :
    getEffectiveStiffMtx m K0 M omega =
      K0 - ∑ j ∈ Finset.range m, omega ^ (j + 1) • M j :=
  getEffectiveStiffMtx_eq m K0 M omega

/-- Witness for C5 at the concrete input `n = 1`, `m = 1`, `K0 = (5)`, `M 0 = (3)`,
`omega = 2`: the loop yields `5 - 2·3 = -1`, matching the closed form. -/
theorem c5_effective_stiffness_formula_witness :
    (1 ≤ 1) ∧
      getEffectiveStiffMtx (n := 1) 1 (fun _ _ => (5 : ℚ)) (fun _ => fun _ _ => (3 : ℚ)) 2 =
        (fun _ _ => (5 : ℚ)) - ∑ j ∈ Finset.range 1, (2 : ℚ) ^ (j + 1) • (fun _ _ => (3 : ℚ)) :=
  ⟨le_refl 1,
    c5_effective_stiffness_formula 1 (le_refl 1) (fun _ _ => (5 : ℚ))
      (fun _ => fun _ _ => (3 : ℚ)) 2⟩

/-- C6: `getFreqDependentStiffMtx` computes exactly
`Kn = K0 + Σ_{j=1}^{m-1} j · omega^(j+1) · M[j]`; for `m = 1` the result is `K0`
itself; and `getEffectiveStiffMtx` evaluates the different polynomial
`Keff = K0 - Σ_{j=0}^{m-1} omega^(j+1) · M[j]` — the asymmetry between the two
operations, stated here for all inputs. -/
theorem c6_freq_dependent_stiffness_asymmetry {n : ℕ} (m : ℕ) (_hm : 1 ≤ m)
    (K0 : Matrix (Fin n) (Fin n) ℚ) (M : ℕ → Matrix (Fin n) (Fin n) ℚ) (omega : ℚ) :
    getFreqDependentStiffMtx m K0 M omega =
        K0 + ∑ j ∈ Finset.Ico 1 m, ((j : ℚ) * omega ^ (j + 1)) • M j ∧
      getFreqDependentStiffMtx 1 K0 M omega = K0 ∧
      getEffectiveStiffMtx m K0 M omega =
        K0 - ∑ j ∈ Finset.range m, omega ^ (j + 1) • M j := by
  refine ⟨getFreqDependentStiffMtx_eq m K0 M omega, ?_, getEffectiveStiffMtx_eq m K0 M omega⟩
  simp [getFreqDependentStiffMtx]

/-- Witness for C6 at `n = 1`, `m = 2`, `K0 = (5)`, `M j = (3)`, `omega = 2`:
`Kn = 5 + 1·2²·3 = 17` while `Keff = 5 - (2·3 + 4·3) = -13`. -/
theorem c6_freq_dependent_stiffness_asymmetry_witness :
    (1 ≤ 2) ∧
      (getFreqDependentStiffMtx (n := 1) 2 (fun _ _ => (5 : ℚ)) (fun _ => fun _ _ => (3 : ℚ)) 2 =
          (fun _ _ => (5 : ℚ)) +
            ∑ j ∈ Finset.Ico (1 : ℕ) 2, ((j : ℚ) * 2 ^ (j + 1)) • (fun _ _ => (3 : ℚ)) ∧
        getFreqDependentStiffMtx (n := 1) 1 (fun _ _ => (5 : ℚ)) (fun _ => fun _ _ => (3 : ℚ)) 2 =
          (fun _ _ => (5 : ℚ)) ∧
        getEffectiveStiffMtx (n := 1) 2 (fun _ _ => (5 : ℚ)) (fun _ => fun _ _ => (3 : ℚ)) 2 =
          (fun _ _ => (5 : ℚ)) - ∑ j ∈ Finset.range 2, (2 : ℚ) ^ (j + 1) • (fun _ _ => (3 : ℚ))) :=
  ⟨by omega,
    c6_freq_dependent_stiffness_asymmetry 2 (by omega) (fun _ _ => (5 : ℚ))
      (fun _ => fun _ _ => (3 : ℚ)) 2⟩

/-- C8: calling `projectEffectiveStiffMatrix` with eigenvalue index `0` leaves
`Keff` completely unchanged (the `for (ii = 0; ii < 0; …)` loop body never runs). -/
theorem c8_project_index_zero_identity {n : ℕ} (Keff : Matrix (Fin n) (Fin n) ℚ)
    (B_s : ℕ → Fin n → ℚ) :
    projectEffectiveStiffMatrix Keff B_s 0 = Keff := by
  simp [projectEffectiveStiffMatrix]

/-- The literal `1e-12` used as `linsolver.setTolerance(1e-12)` and in the
comparison `linsolver.error() < 1e-12` (source lines 303 and 313). -/
def linSolverTol : ℚ := 1 / 10 ^ 12

/-- Final values of the three by-reference parameters of
`iterativeLinearSolver` together with its returned `bool`. -/
structure LinSolveResult (n : ℕ) where
  Afinal : Matrix (Fin n) (Fin n) ℚ
  bfinal : Fin n → ℚ
  x : Fin n → ℚ
  status : Bool

/-- Embedding of `iterativeLinearSolver` (source lines 298-320).  The
conjugate-gradient kernel `Eigen::ConjugateGradient` is an external
collaborator; it is modelled by the oracle `cg`, which maps the matrix given
to `compute` and the right-hand side given to `solve` to the returned
solution together with the solver's reported error estimate
`linsolver.error()`.  The body sets `x = linsolver.solve(b)`, initializes
`status = true`, downgrades it to `false` when `linsolver.error() < 1e-12`,
and returns it; no statement assigns to `A` or `b`, so their final values are
the inputs. -/
def iterativeLinearSolver {n : ℕ}
    (cg : Matrix (Fin n) (Fin n) ℚ → (Fin n → ℚ) → (Fin n → ℚ) × ℚ)
    (A : Matrix (Fin n) (Fin n) ℚ) (b : Fin n → ℚ) : LinSolveResult n :=
  let sol := cg A b
  let status := true
  let status := if sol.2 < linSolverTol then false else status
  ⟨A, b, sol.1, status⟩

/-- C4: `iterativeLinearSolver` returns `true` exactly when the solver's
reported error estimate is NOT smaller than the tolerance `1e-12`, and `false`
when the estimate is below it. -/
theorem c4_linear_solver_status_inverted {n : ℕ}
    (cg : Matrix (Fin n) (Fin n) ℚ → (Fin n → ℚ) → (Fin n → ℚ) × ℚ)
    (A : Matrix (Fin n) (Fin n) ℚ) (b : Fin n → ℚ) :
    ((iterativeLinearSolver cg A b).status = true ↔ ¬ (cg A b).2 < linSolverTol) ∧
      ((cg A b).2 < linSolverTol → (iterativeLinearSolver cg A b).status = false) := by
  constructor
  · simp only [iterativeLinearSolver]
    by_cases h : (cg A b).2 < linSolverTol <;> simp [h]
  · intro h
    simp [iterativeLinearSolver, h]

/-- C9: `iterativeLinearSolver` leaves both `A` and `b` unchanged; only the
output vector `x` is written. -/
theorem c9_linear_solver_frame {n : ℕ}
    (cg : Matrix (Fin n) (Fin n) ℚ → (Fin n → ℚ) → (Fin n → ℚ) × ℚ)
    (A : Matrix (Fin n) (Fin n) ℚ) (b : Fin n → ℚ) :
    (iterativeLinearSolver cg A b).Afinal = A ∧ (iterativeLinearSolver cg A b).bfinal = b :=
  ⟨rfl, rfl⟩

/-- Control skeleton of the inner `while (abs(conv) > m_TOL)` loop of
`execute` (source lines 60-142).  The numerical content of one loop body
(orthogonalization, linear solve, Rayleigh quotient) only matters here
through the value of `conv` it computes; `c t` is the value `abs` is applied
to at the `t`-th guard check, i.e. `c 0 = 1.0` is the initial value and
`c (t+1)` is the `conv` produced by the `(t+1)`-th body execution.  The
counter `iterK` starts at `0`, is incremented at the end of each body, and
`if (iterK > m_MaxIter) break;` ends the loop.  The function returns the
total number of body executions. -/
def innerLoopCount (c : ℕ → ℚ) (TOL : ℚ) (MaxIter : ℕ) (t : ℕ) : ℕ :=
  if |c t| > TOL then
    (if h : t + 1 > MaxIter then t + 1 else innerLoopCount c TOL MaxIter (t + 1))
  else t
termination_by MaxIter + 1 - t
decreasing_by omega

/-- Entering the loop with counter value `t ≤ MaxIter` yields at most
`MaxIter + 1` body executions in total (helper, by recursion on the same
measure as `innerLoopCount`). -/
lemma innerLoopCount_le (c : ℕ → ℚ) (TOL : ℚ) (MaxIter : ℕ) (t : ℕ)
    (ht : t ≤ MaxIter) : innerLoopCount c TOL MaxIter t ≤ MaxIter + 1 := by
  rw [innerLoopCount]
  by_cases hg : |c t| > TOL
  · rw [if_pos hg]
    by_cases hcap : t + 1 > MaxIter
    · rw [dif_pos hcap]
      omega
    · rw [dif_neg hcap]
      exact innerLoopCount_le c TOL MaxIter (t + 1) (by omega)
  · rw [if_neg hg]
    omega
termination_by MaxIter + 1 - t
decreasing_by omega

/-- C7: for every eigenvalue index the inner `while` loop of `execute`
terminates (the embedding `innerLoopCount` is a total function) with at most
`m_MaxIter + 1 = 21` body executions, whatever `conv` values the numerics
produce; and the outer `for` loop still processes every one of the `p`
eigenvalue indices — hitting the cap only `break`s the inner loop.  `c ie t`
is the `conv` value tested at the `t`-th guard check for eigenvalue `ie`. -/
theorem c7_inner_loop_bounded (p : ℕ) (c : ℕ → ℕ → ℚ) :
    (∀ cnt ∈ (List.range p).map (fun ie => innerLoopCount (c ie) m_TOL m_MaxIter 0),
        cnt ≤ m_MaxIter + 1) ∧
      ((List.range p).map (fun ie => innerLoopCount (c ie) m_TOL m_MaxIter 0)).length = p := by
  constructor
  · intro cnt hcnt
    simp only [List.mem_map] at hcnt
    obtain ⟨ie, -, rfl⟩ := hcnt
    exact innerLoopCount_le (c ie) m_TOL m_MaxIter 0 (Nat.zero_le _)
  · simp

/-- Witness for C7 at `p = 1` and the constant `conv` sequence `0`: the inner
loop exits at once, with `0 ≤ 21` body executions and one processed index. -/
theorem c7_inner_loop_bounded_witness :
    (∀ cnt ∈ (List.range 1).map (fun ie =>
        innerLoopCount ((fun _ _ => 0) ie) m_TOL m_MaxIter 0), cnt ≤ m_MaxIter + 1) ∧
      ((List.range 1).map (fun ie =>
        innerLoopCount ((fun _ _ => 0) ie) m_TOL m_MaxIter 0)).length = 1 :=
  c7_inner_loop_bounded 1 (fun _ _ => 0)

/-- The calls `execute` makes on its collaborators that read the problem or
emit results, plus the error log of the iteration cap.  The `LOG_INFO`
progress diagnostics are not tracked. -/
inductive Event where
  | readInput
  | logMaxIterError
  | writeResults
  deriving DecidableEq

/-- Events emitted by the inner `while` loop of `execute`, mirroring
`innerLoopCount`: the only tracked event a body execution can emit is
`LOG_ERROR("Error: It has reached the max. number of iterations!!")`
just before `break` (source lines 136-140). -/
def innerLoopEvents (c : ℕ → ℚ) (TOL : ℚ) (MaxIter : ℕ) (t : ℕ) : List Event :=
  if |c t| > TOL then
    (if h : t + 1 > MaxIter then [Event.logMaxIterError]
     else innerLoopEvents c TOL MaxIter (t + 1))
  else []
termination_by MaxIter + 1 - t
decreasing_by omega

/-- Trace of tracked collaborator calls in the body of `execute`
(source lines 19-145): `readFileAndGetStiffMassMatrices` at line 25, then the
events of the eigenvalue loop at lines 47-143, then the function returns —
no further statement follows the loop, in particular no call of
`printResults`. -/
def executeEvents (p : ℕ) (c : ℕ → ℕ → ℚ) : List Event :=
  Event.readInput ::
    (List.range p).foldl (fun tr ie => tr ++ innerLoopEvents (c ie) m_TOL m_MaxIter 0) []

/-- The inner loop never emits `writeResults` (helper). -/
lemma writeResults_not_mem_innerLoopEvents (c : ℕ → ℚ) (TOL : ℚ) (MaxIter : ℕ) (t : ℕ) :
    Event.writeResults ∉ innerLoopEvents c TOL MaxIter t := by
  rw [innerLoopEvents]
  by_cases hg : |c t| > TOL
  · rw [if_pos hg]
    by_cases hcap : t + 1 > MaxIter
    · rw [dif_pos hcap]
      simp
    · rw [dif_neg hcap]
      exact writeResults_not_mem_innerLoopEvents c TOL MaxIter (t + 1)
  · rw [if_neg hg]
    simp
termination_by MaxIter + 1 - t
decreasing_by omega

/-- Folding inner-loop traces never introduces `writeResults` (helper). -/
lemma writeResults_not_mem_foldl (c : ℕ → ℕ → ℚ) (l : List ℕ) (acc : List Event)
    (hacc : Event.writeResults ∉ acc) :
    Event.writeResults ∉
      l.foldl (fun tr ie => tr ++ innerLoopEvents (c ie) m_TOL m_MaxIter 0) acc := by
  induction l generalizing acc with
  | nil => exact hacc
  | cons ie l ih =>
    refine ih _ ?_
    simp only [List.mem_append]
    rintro (h | h)
    · exact hacc h
    · exact writeResults_not_mem_innerLoopEvents (c ie) m_TOL m_MaxIter 0 h

/-- C1: `execute` never invokes the result-writing operation `printResults`,
for any number `p` of requested eigenvalues and any numeric behavior of the
iteration: the accumulated `Omega` and `Phi` are locals of `execute` and are
discarded when it returns. -/
theorem c1_execute_never_writes_results (p : ℕ) (c : ℕ → ℕ → ℚ) :
    Event.writeResults ∉ executeEvents p c := by
  simp only [executeEvents, List.mem_cons]
  rintro (h | h)
  · exact Event.noConfusion h
  · exact writeResults_not_mem_foldl c (List.range p) [] (by simp) h

/-- Overwrite column `j` of the column family `B` with the vector `v`
(`B_r.col(j) = v` on the tall matrix `B_r` whose columns are `B 0, B 1, …`). -/
def setCol {n : ℕ} (B : ℕ → Fin n → ℚ) (j : ℕ) (v : Fin n → ℚ) : ℕ → Fin n → ℚ :=
  fun k => if k = j then v else B k

/-- Embedding of the basis-orthogonalization block of `execute`
(source lines 62-80), one inner `while`-iteration's worth, acting on the
columns of `B_r`.  For `is = 0, …, ie-1` in increasing order the source runs:
`getGeneralizedFreqDependentMassMtx(MM, Mlrls, Omega(ie), Omega(is));`
`B_r.col(ie) = Mlrls * Phi.col(is);` — note the target column index `ie` —
then, when `is > 0`, for `el = 0, …, is-1`:
`B_r.col(is) += -B_r.col(el) * (B_r.col(el).transpose() * B_r.col(is));`
(for `is = 0` that loop is empty, so the guard is the same as the bare loop),
and finally
`B_r.col(is) = 1.0 / (sqrt(B_r.col(is).transpose() * B_r.col(is))) * B_r.col(is);`.
`std::sqrt` is the oracle `sqrtQ`. -/
def orthogonalizeBasis {n : ℕ} (sqrtQ : ℚ → ℚ) (m : ℕ)
    (M : ℕ → Matrix (Fin n) (Fin n) ℚ) (Omega : ℕ → ℚ) (Phi : ℕ → Fin n → ℚ)
    (ie : ℕ) (B0 : ℕ → Fin n → ℚ) : ℕ → Fin n → ℚ :=
  (List.range ie).foldl (fun B is =>
    let Mlrls := getGeneralizedFreqDependentMassMtx m M (Omega ie) (Omega is)
    let B1 := setCol B ie (Mlrls.mulVec (Phi is))
    let B2 := (List.range is).foldl (fun Bb el =>
      setCol Bb is (fun i => Bb is i - Matrix.dotProduct (Bb el) (Bb is) * Bb el i)) B1
    setCol B2 is (fun i => (1 / sqrtQ (Matrix.dotProduct (B2 is) (B2 is))) * B2 is i)) B0

/-- Square-root oracle for the C2 run below; it agrees with the real square
root on every argument that run feeds it (only `0` and `1` occur). -/
def sqrtOracle : ℚ → ℚ := fun q => if q = 1 then 1 else 0

/-- Concrete mass-matrix list for the C2 run: `m = 1`, `M[0]` the `1 × 1`
identity. -/
def oneByOneMass : ℕ → Matrix (Fin 1) (Fin 1) ℚ := fun _ => 1

/-- Concrete eigenvalue estimates for the C2 run: `Omega(0) = Omega(1) = 1`. -/
def oneByOneOmega : ℕ → ℚ := fun _ => 1

/-- Concrete eigenvector columns for the C2 run: `Phi.col(0) = (1)`. -/
def oneByOnePhi : ℕ → Fin 1 → ℚ := fun _ => fun _ => 1

/-- The zero-initialized `B_r` of `execute` (source lines 32 and 39). -/
def oneByOneBzero : ℕ → Fin 1 → ℚ := fun _ => fun _ => 0

/-- C2 fails on the code: running the basis-orthogonalization block for
eigenvalue index `ie = 1` on `n = 1`, `m = 1`, `M[0] = (1)`,
`Omega = (1, 1)`, `Phi.col(0) = (1)` and the zero-initialized `B_r`, the
product `Mlrls(Omega(1), Omega(0)) * Phi.col(0) = (1)` is stored into column
`ie = 1`, not into column `s = 0`; column `0` — the one the claim says holds
the normalized product — is instead the normalization of the untouched zero
column and is not the product `(1)` (in exact arithmetic it stays `(0)`;
in `double` arithmetic `1.0 / sqrt(0.0)` makes it NaN). -/
theorem c2_product_stored_in_column_ie_not_s :
    orthogonalizeBasis sqrtOracle 1 oneByOneMass oneByOneOmega oneByOnePhi 1 oneByOneBzero 1 =
        (getGeneralizedFreqDependentMassMtx 1 oneByOneMass (oneByOneOmega 1)
          (oneByOneOmega 0)).mulVec (oneByOnePhi 0) ∧
      orthogonalizeBasis sqrtOracle 1 oneByOneMass oneByOneOmega oneByOnePhi 1 oneByOneBzero 0 ≠
        (getGeneralizedFreqDependentMassMtx 1 oneByOneMass (oneByOneOmega 1)
          (oneByOneOmega 0)).mulVec (oneByOnePhi 0) ∧
      orthogonalizeBasis sqrtOracle 1 oneByOneMass oneByOneOmega oneByOnePhi 1 oneByOneBzero 0 =
        fun _ => 0 := by
  have hM : getGeneralizedFreqDependentMassMtx 1 oneByOneMass (oneByOneOmega 1)
      (oneByOneOmega 0) = 1 := by
    simp [getGeneralizedFreqDependentMassMtx, oneByOneMass, List.range_succ]
  have hRHS : (getGeneralizedFreqDependentMassMtx 1 oneByOneMass (oneByOneOmega 1)
      (oneByOneOmega 0)).mulVec (oneByOnePhi 0) = fun _ => 1 := by
    rw [hM, Matrix.one_mulVec]
    rfl
  have hcol1 : orthogonalizeBasis sqrtOracle 1 oneByOneMass oneByOneOmega oneByOnePhi 1
      oneByOneBzero 1 = fun _ => 1 := by
    simp only [orthogonalizeBasis, hM, setCol, sqrtOracle, oneByOnePhi, oneByOneBzero,
      Matrix.one_mulVec, Matrix.dotProduct, List.range_succ, List.range_zero,
      List.foldl_cons, List.foldl_nil, List.nil_append]
    rfl
  have hcol0 : orthogonalizeBasis sqrtOracle 1 oneByOneMass oneByOneOmega oneByOnePhi 1
      oneByOneBzero 0 = fun _ => 0 := by
    simp [orthogonalizeBasis, hM, setCol, sqrtOracle, oneByOnePhi, oneByOneBzero,
      Matrix.one_mulVec, Matrix.dotProduct, List.range_succ, List.range_zero,
      List.foldl_cons, List.foldl_nil]
  refine ⟨by rw [hcol1, hRHS], ?_, hcol0⟩
  rw [hcol0, hRHS]
  intro h
  have h0 := congrFun h 0
  norm_num at h0

/-- Reading one `m_Dimensions × m_Dimensions` matrix with the nested loops
`for (ii …) for (jj …) fid >> A(ii, jj);` of
`readFileAndGetStiffMassMatrices` (source lines 174-180 and 186-192),
modelled over the stream `s` of numeric tokens remaining in the opened file.
A matrix is a row list of row-major entries, so the shape is data, as with
`Eigen::MatrixXd`.  A successful extraction stores token `i*n + j` into
entry `(i, j)`; an extraction past the end of the stream fails and leaves
the target entry unchanged (value taken from `init`), as `operator>>` does,
and every later extraction fails too.  The second component is the stream
left for subsequent reads. -/
def readMatrix (n : ℕ) (init : List (List ℚ)) (s : List ℚ) :
    List (List ℚ) × List ℚ :=
  ((List.range n).map fun i => (List.range n).map fun j =>
      s.getD (i * n + j) ((init.getD i []).getD j 0),
   s.drop (n * n))

/-- The zero matrix installed by `K0.setZero()` and `Mtemp.setZero()`
(source line 170). -/
def zeroMatrixList (n : ℕ) : List (List ℚ) := List.replicate n (List.replicate n 0)

/-- The mass-matrix loop of `readFileAndGetStiffMassMatrices` (source lines
184-195): `m_NumberOfMassMtx` blocks are read into the single scratch matrix
`Mtemp` — which is *not* re-zeroed between blocks, so entries the stream can
no longer fill keep the previous block's values — and a copy of `Mtemp` is
appended to `MM` after each block. -/
def readMassMatrices : ℕ → ℕ → List (List ℚ) → List ℚ →
    List (List (List ℚ)) × List ℚ
  | 0, _, _, s => ([], s)
  | mcount + 1, n, Mtemp, s =>
    let r := readMatrix n Mtemp s
    let rest := readMassMatrices mcount n r.1 r.2
    (r.1 :: rest.1, rest.2)

/-- Embedding of `readFileAndGetStiffMassMatrices` (source lines 147-200)
after the file was opened successfully and the header line plus the three
counts `m_Dimensions m_NumberOfMassMtx m_NumberOfEigenValues` were
extracted: `n` and `m` are those counts and `s` is the stream of numeric
tokens that follow them in the file.  The routine allocates `K0` and `Mtemp`
as `n × n` zero matrices, fills `K0` from the stream, then reads the `m`
mass matrices.  It performs no stream-failure check whatsoever: the function
is total and returns the matrices as filled, never an error. -/
def readFileAndGetStiffMassMatrices (n m : ℕ) (s : List ℚ) :
    List (List ℚ) × List (List (List ℚ)) :=
  let K0r := readMatrix n (zeroMatrixList n) s
  let MMr := readMassMatrices m n (zeroMatrixList n) K0r.2
  (K0r.1, MMr.1)

/-- `readMatrix` always produces `n` rows of `n` entries (helper). -/
lemma readMatrix_shape (n : ℕ) (init : List (List ℚ)) (s : List ℚ) :
    ((readMatrix n init s).1.length = n ∧
      ∀ row ∈ (readMatrix n init s).1, row.length = n) := by
  constructor
  · simp [readMatrix]
  · intro row hrow
    simp only [readMatrix, List.mem_map] at hrow
    obtain ⟨i, -, rfl⟩ := hrow
    simp

/-- `readMassMatrices` returns exactly `mcount` matrices, each of them
`n × n` (helper). -/
lemma readMassMatrices_shape (n : ℕ) :
    ∀ (mcount : ℕ) (Mtemp : List (List ℚ)) (s : List ℚ),
      (readMassMatrices mcount n Mtemp s).1.length = mcount ∧
        ∀ Mi ∈ (readMassMatrices mcount n Mtemp s).1,
          Mi.length = n ∧ ∀ row ∈ Mi, row.length = n := by
  intro mcount
  induction mcount with
  | zero => simp [readMassMatrices]
  | succ mcount ih =>
    intro Mtemp s
    simp only [readMassMatrices, List.length_cons, List.mem_cons]
    refine ⟨by simpa using (ih _ _).1, ?_⟩
    rintro Mi (rfl | hMi)
    · exact readMatrix_shape n Mtemp s
    · exact (ih _ _).2 Mi hMi

/-- C10: after `readFileAndGetStiffMassMatrices` returns on a well-formed
input (the stream holds at least the `n·n` entries of `K0` and the `m·n·n`
entries of the mass matrices), `MM` contains exactly `m` matrices and each
of them, as well as `K0`, has exactly `n` rows of `n` entries. -/
theorem c10_reader_output_shapes (n m : ℕ) (s : List ℚ)
    (_hs : n * n + m * (n * n) ≤ s.length) :
    (readFileAndGetStiffMassMatrices n m s).2.length = m ∧
      (∀ Mi ∈ (readFileAndGetStiffMassMatrices n m s).2,
        Mi.length = n ∧ ∀ row ∈ Mi, row.length = n) ∧
      (readFileAndGetStiffMassMatrices n m s).1.length = n ∧
      ∀ row ∈ (readFileAndGetStiffMassMatrices n m s).1, row.length = n := by
  refine ⟨?_, ?_, ?_, ?_⟩
  · simpa [readFileAndGetStiffMassMatrices] using
      (readMassMatrices_shape n m _ _).1
  · simpa [readFileAndGetStiffMassMatrices] using
      (readMassMatrices_shape n m _ _).2
  · simpa [readFileAndGetStiffMassMatrices] using
      (readMatrix_shape n (zeroMatrixList n) s).1
  · simpa [readFileAndGetStiffMassMatrices] using
      (readMatrix_shape n (zeroMatrixList n) s).2

/-- Witness for C10 at `n = 1`, `m = 1`, stream `(4, 7)`: the stream has the
required `1 + 1 = 2` tokens and the shapes hold. -/
theorem c10_reader_output_shapes_witness :
    (1 * 1 + 1 * (1 * 1) ≤ ([4, 7] : List ℚ).length) ∧
      ((readFileAndGetStiffMassMatrices 1 1 [4, 7]).2.length = 1 ∧
        (∀ Mi ∈ (readFileAndGetStiffMassMatrices 1 1 [4, 7]).2,
          Mi.length = 1 ∧ ∀ row ∈ Mi, row.length = 1) ∧
        (readFileAndGetStiffMassMatrices 1 1 [4, 7]).1.length = 1 ∧
        ∀ row ∈ (readFileAndGetStiffMassMatrices 1 1 [4, 7]).1, row.length = 1) :=
  ⟨by simp, c10_reader_output_shapes 1 1 [4, 7] (by simp)⟩

/-- C3 fails on the code: on a malformed file declaring `n = 2`, `m = 1` but
containing only the first row `2 0` of `K0` and nothing else, the reader
detects nothing — it returns normally with the missing `K0` entries left at
their `setZero` values and the mass matrix entirely zero.  The run then
proceeds with the zero-filled matrices; no fatal input error is reported (the
only guarded failure in the routine is the initial `fid.fail()` open check). -/
theorem c3_reader_zero_fills_short_input :
    readFileAndGetStiffMassMatrices 2 1 [2, 0] =
      ([[2, 0], [0, 0]], [[[0, 0], [0, 0]]]) := by
  simp only [readFileAndGetStiffMassMatrices, readMatrix, readMassMatrices, zeroMatrixList]
  norm_num [List.range_succ]

end NLEigenJacobiDavidson
